import Mathlib

/-!
Verification of the Reed-Solomon codec (GaloisField.py, Polynomial.py,
ReedSolomon.py).  Field elements are `Nat` values below 256; polynomials are
`List Nat` with the highest-degree coefficient first, as in the source.
Received codewords are `List Int`, since the source marks erasures with
negative sentinel values.
-/

set_option linter.unusedVariables false
set_option maxRecDepth 100000

namespace RS

/-- Error kinds raised by the source (`ZeroDivisionError`, the two
`ReedSolomonError` messages, and Python `ValueError` from `max(())` when the
syndrome polynomial is empty). -/
inductive RSError where
  | DivisionByZero
  | TooManyErasures
  | TooManyErrors
  | ValueError
deriving DecidableEq, Repr

/-- One doubling step of the table-construction loop in
`GaloisField.__init__`: `val <<= 1; if val & 0x100: val ^= 0x11d`. -/
def xtime (v : Nat) : Nat :=
  if (v <<< 1) &&& 0x100 ≠ 0 then (v <<< 1) ^^^ 0x11d else v <<< 1

/-- `pow2 i` is the value `val` after `i` iterations of the construction
loop, i.e. the table entry `GF[i]` for `i ≤ 254` (entry 0 is manually 1). -/
def pow2 : Nat → Nat
  | 0 => 1
  | n + 1 => xtime (pow2 n)

/-- The 512-entry exponent table `GF` of `GaloisField.__init__`:
`GF[0] = 1`, `GF[i] = pow2 i` for `1 ≤ i ≤ 254`, and
`GF[i] = GF[i - 255]` for `255 ≤ i < 512` (filled sequentially, so
`GF[510] = GF[255] = GF[0]` and `GF[511] = GF[256] = GF[1]`).  All of this
collapses to `pow2 (i % 255)`. -/
def GFtable (i : Nat) : Nat := pow2 (i % 255)

/-- Linear search used to express the log table: `logGo v val idx fuel`
walks the same `val` sequence the construction loop walks and returns the
first exponent `idx` with `pow2 idx = v`.  The loop writes
`logTable[val] = position` for positions 1..254 (all values distinct, see
`pow2_nodup`), every other entry keeps its initial value 0, which is also
what a failed search returns. -/
def logGo (v : Nat) : Nat → Nat → Nat → Nat
  | val, idx, 0 => 0
  | val, idx, fuel + 1 => if val = v then idx else logGo v (xtime val) (idx + 1) fuel

/-- The log table `__logTable` of `GaloisField.__init__` as a function:
discrete log base 2 for the 255 non-zero field elements, 0 elsewhere. -/
def logT (v : Nat) : Nat := logGo v 1 0 255

/-- `GaloisField.gfMul`: 0 if either operand is 0, otherwise
`GF[log x + log y]`. -/
def gfMul (x y : Nat) : Nat :=
  if x = 0 ∨ y = 0 then 0 else GFtable (logT x + logT y)

/-- `GaloisField.gfDiv`: `ZeroDivisionError` for `y = 0`, 0 for `x = 0`,
otherwise `GF[log x - log y + 255]` (written `logT x + 255 - logT y`; since
`logT y ≤ 254` the Python int arithmetic never goes negative before
indexing). -/
def gfDiv (x y : Nat) : Except RSError Nat :=
  if y = 0 then .error .DivisionByZero
  else if x = 0 then .ok 0
  else .ok (GFtable (logT x + 255 - logT y))

/-- `GaloisField.gfPow`: `GF[(log x * power) % lowSize]` where
`lowSize = 256`.  The exponent is a Python int, so the modulo is the
floored one, which for the positive modulus 256 coincides with `Int.emod`
and lands in `[0, 255]`. -/
def gfPow (x : Nat) (power : Int) : Nat :=
  GFtable (((logT x : Int) * power % 256).toNat)

/-- `GaloisField.gfInv`: `GF[(lowSize - 1) - log x] = GF[255 - log x]`. -/
def gfInv (x : Nat) : Nat := GFtable (255 - logT x)

/-! ### An abstract carry-less multiplication, used to relate the table
lookups of `gfMul` to the GF(2)-linear structure (XOR distributivity). -/

/-- Russian-peasant multiplication in GF(256): scan the bits of `x`,
reducing `y` with `xtime` at each step.  Proof device only; the source
always multiplies through the log/exponent tables. -/
def fmul (x y : Nat) : Nat :=
  if h : x = 0 then 0
  else (if x % 2 = 1 then y else 0) ^^^ fmul (x / 2) (xtime y)
termination_by x
decreasing_by exact Nat.div_lt_self (Nat.pos_of_ne_zero h) (by decide)

/-- Iterated field power, used to state Horner-evaluation lemmas. -/
def fpow (a : Nat) : Nat → Nat
  | 0 => 1
  | k + 1 => gfMul a (fpow a k)

/-! ### Polynomials (`Polynomial.py`): plain coefficient lists, highest
degree first. -/

/-- `Polynomial.__add__`: result length `max(len(a), len(b))`; the first
operand is written into the tail of a zero buffer
(`sum[len(sum)-len(self):] = self`, i.e. zero-padded on the high-degree
side) and the second operand is XORed into the tail position-wise. -/
def polyAdd (a b : List Nat) : List Nat :=
  let n := max a.length b.length
  let s := List.replicate (n - a.length) 0 ++ a
  s.take (n - b.length) ++ List.zipWith (· ^^^ ·) (s.drop (n - b.length)) b

/-- `Polynomial.scale`: multiply every coefficient by `x`. -/
def polyScale (p : List Nat) (x : Nat) : List Nat := p.map (fun c => gfMul c x)

/-- `Polynomial.eval`: Horner evaluation starting from the highest-degree
coefficient.  The source starts from `self.polynomial[0]` and raises
`IndexError` on an empty polynomial; the modelled code paths never
evaluate an empty polynomial, and the embedding returns 0 there. -/
def polyEval (p : List Nat) (x : Nat) : Nat :=
  match p with
  | [] => 0
  | c :: rest => rest.foldl (fun val c2 => gfMul val x ^^^ c2) c

/-- `Polynomial.__mul__`: the literal double loop
`mul[posY + posX] ^= gfMul(self[posX], other[posY])` over a zero buffer of
length `len(a) + len(b) - 1`. -/
def polyMul (a b : List Nat) : List Nat :=
  (List.range b.length).foldl (fun mul posY =>
    (List.range a.length).foldl (fun m posX =>
      m.set (posY + posX) (m.getD (posY + posX) 0 ^^^ gfMul (a.getD posX 0) (b.getD posY 0))) mul)
    (List.replicate (a.length + b.length - 1) 0)

/-- `Polynomial.__truediv__`: synthetic division.  The loop bound is the
literal `range(len(self) - len(other) - 1)` of the source (empty when the
Python value would be negative, matching truncated subtraction), and the
final slices `num[:-(len(other)-1)]`, `num[-(len(other)-1):]` follow the
Python convention that a `-0` slice index means 0, so a length-1 divisor
yields `([], num)`. -/
def polyDiv (a b : List Nat) : List Nat × List Nat :=
  let num := (List.range (a.length - b.length - 1)).foldl (fun num posX =>
    (List.range (b.length - 1)).foldl (fun n j =>
      n.set (posX + (j + 1)) (n.getD (posX + (j + 1)) 0 ^^^ gfMul (b.getD (j + 1) 0) (n.getD posX 0))) num) a
  let m := b.length - 1
  if m = 0 then ([], num)
  else (num.take (num.length - m), num.drop (num.length - m))

/-- `Polynomial.generator`: start from `[1]` and multiply by
`Polynomial([1, GF[i]])` for each `i < error_size`. -/
def generator (errorSize : Nat) : List Nat :=
  (List.range errorSize).foldl (fun p i => polyMul p [1, GFtable i]) [1]

/-- `Polynomial.syndromePolynomial`: a zero list of length `error_size`
whose `i`-th entry is set to `eval(block, GF[i])`. -/
def syndromePolynomial (block : List Nat) (errorSize : Nat) : List Nat :=
  (List.range errorSize).foldl (fun g i => g.set i (polyEval block (GFtable i)))
    (List.replicate errorSize 0)

/-- `Polynomial.errorLocatorPolynomial`: product of
`Polynomial([1]) + Polynomial([gfPow(2, i), 0])` over the coefficient
positions (which the decoder passes as Python ints, possibly negative). -/
def errorLocatorPolynomial (errorPositions : List Int) : List Nat :=
  errorPositions.foldl (fun loc i => polyMul loc (polyAdd [1] [gfPow 2 i, 0])) [1]

/-- The divisor polynomial `Polynomial([1] + [0]*k)` (degree-`k` monomial),
as built by `errorEvaluatorPolynomial`. -/
def xpow (k : Nat) : List Nat := 1 :: List.replicate k 0

/-- `Polynomial.errorEvaluatorPolynomial`: remainder of
`(syndrome * locator) / Polynomial([1] + [0]*error_size)`. -/
def errorEvaluatorPolynomial (syndromePoly errorLocator : List Nat) (errorSize : Nat) : List Nat :=
  (polyDiv (polyMul syndromePoly errorLocator) (xpow errorSize)).2

/-! ### The codec (`ReedSolomon.py`). -/

/-- One iteration of the encoding loop of `ReedSolomon.encode`: read the
current buffer symbol at `position`; when non-zero, XOR
`gfMul(generator[k], char)` into the buffer at `position + k` for every
generator coefficient. -/
def encodeStep (g : List Nat) (buffer : List Nat) (position : Nat) : List Nat :=
  let c := buffer.getD position 0
  if c = 0 then buffer
  else (List.range g.length).foldl
    (fun b k => b.set (position + k) (b.getD (position + k) 0 ^^^ gfMul (g.getD k 0) c)) buffer

/-- `ReedSolomon.encode` on symbol values (the source takes a `str` and
applies `ord`; per the spec the text layer is an out-of-scope wrapper):
run the reduction loop over a buffer initialised with the message followed
by `error_size` zeros, then restore the original message symbols into the
low positions. -/
def encode (message : List Nat) (errorSize : Nat) : List Nat :=
  let g := generator errorSize
  let buffer := (List.range message.length).foldl (encodeStep g)
    (message ++ List.replicate errorSize 0)
  message ++ buffer.drop message.length

/-- Inner loop of `ReedSolomon.forneySyndromes`: for `j` in
`range(len(fs) - 1)`, `fs[j] = gfMul(fs[j], x) ^ fs[j+1]` (each write uses
the not-yet-rewritten `fs[j+1]`, which the sequential fold reproduces). -/
def forneyInner (x : Nat) (fs : List Nat) : List Nat :=
  (List.range (fs.length - 1)).foldl
    (fun b j => b.set j (gfMul (b.getD j 0) x ^^^ b.getD (j + 1) 0)) fs

/-- `ReedSolomon.forneySyndromes`: map erasure positions to coefficient
positions `len(message) - 1 - p`, then repeatedly run the inner reduction
with `x = gfPow(2, position)` and drop the last entry (`pop`). -/
def forneySyndromes (syndromePoly : List Nat) (erasures : List Int) (messageLen : Nat) : List Nat :=
  (erasures.map (fun p => (messageLen : Int) - 1 - p)).foldl
    (fun fs e => (forneyInner (gfPow 2 e) fs).dropLast) syndromePoly

/-- The discrepancy `delta` of one Berlekamp-Massey iteration:
`delta = fs[i]`, then for `j` in `range(1, len(loc))`,
`delta ^= gfMul(loc[-(j+1)], fs[i-j])`.  Indices are written with
truncated subtraction: the loop maintains `len(loc) ≤ i + 1`, so the
Python index `i - j` is never negative on any reachable iteration. -/
def bmDelta (fs loc : List Nat) (i : Nat) : Nat :=
  (List.range (loc.length - 1)).foldl
    (fun d j => d ^^^ gfMul (loc.getD (loc.length - (j + 2)) 0) (fs.getD (i - (j + 1)) 0))
    (fs.getD i 0)

/-- One Berlekamp-Massey iteration of `ReedSolomon.findErrors`: append 0 to
the auxiliary polynomial; when the discrepancy is non-zero, optionally swap
the (scaled) roles of locator and auxiliary, then accumulate
`last.scale(delta)` into the locator. -/
def bmStep (fs : List Nat) (st : List Nat × List Nat) (i : Nat) : List Nat × List Nat :=
  let loc := st.1
  let last := st.2
  let delta := bmDelta fs loc i
  let last1 := last ++ [0]
  if delta ≠ 0 then
    if last1.length > loc.length then
      let newPoly := polyScale last1 delta
      let last2 := polyScale loc (gfInv delta)
      (polyAdd newPoly (polyScale last2 delta), last2)
    else
      (polyAdd loc (polyScale last1 delta), last1)
  else (loc, last1)

/-- The error-locator polynomial computed by the Berlekamp-Massey part of
`ReedSolomon.findErrors`, reversed at the end (`[::-1]`). -/
def bmLocator (fs : List Nat) : List Nat :=
  ((List.range fs.length).foldl (bmStep fs) ([1], [1])).1.reverse

/-- `ReedSolomon.findErrors`: Berlekamp-Massey, the degree bound
(`error_count * 2 > len(forney_syndromes)`), Chien search over
`range(self.GF.lowSize)` with `lowSize = 256`, and the sanity check that
the number of discovered zeros equals the expected error count.  Error
positions are Python ints: `length_message - i - 1` can be negative. -/
def findErrors (fs : List Nat) (lengthMessage : Nat) : Except RSError (List Int) :=
  let loc := bmLocator fs
  let errorCount := loc.length - 1
  if errorCount * 2 > fs.length then .error .TooManyErrors
  else
    let errorList := (List.range 256).foldl
      (fun l i => if polyEval loc (gfPow 2 (Int.ofNat i)) = 0
        then l ++ [(lengthMessage : Int) - i - 1] else l) []
    if errorList.length ≠ errorCount then .error .TooManyErrors
    else .ok errorList

/-- Modelled from the spec: the Chien-search stage exactly as claim C4
words it — scanning only the exponents `i ∈ [0, 255)` — with every other
step identical to `findErrors`.  Used to compare the claimed behaviour
against the source's `range(self.GF.lowSize)` scan. -/
def chienClaim255 (fs : List Nat) (lengthMessage : Nat) : Except RSError (List Int) :=
  let loc := bmLocator fs
  let errorCount := loc.length - 1
  if errorCount * 2 > fs.length then .error .TooManyErrors
  else
    let errorList := (List.range 255).foldl
      (fun l i => if polyEval loc (gfPow 2 (Int.ofNat i)) = 0
        then l ++ [(lengthMessage : Int) - i - 1] else l) []
    if errorList.length ≠ errorCount then .error .TooManyErrors
    else .ok errorList

/-- Python list assignment `l[i] = v` for an `int` index: a negative index
counts from the end.  (An out-of-range Python index raises `IndexError`;
`List.set` leaves the list unchanged instead.  `ReedSolomon.correct` only
assigns at indices produced by its callers' position lists.) -/
def pySetInt (l : List Nat) (i : Int) (v : Nat) : List Nat :=
  if 0 ≤ i then l.set i.toNat v else l.set (l.length - (-i).toNat) v

/-- `ReedSolomon.correct`: rebuild the locator over all erasure/error
positions, compute the error-evaluator polynomial from the reversed
syndrome, then the Forney loop: for each position, the formal-derivative
product, the evaluator value at the inverse position, and the magnitude
`gfDiv(y, derivative)` (which can raise `ZeroDivisionError`), written into
the magnitude buffer at the Python index `errors[i]`; finally XOR the
magnitudes onto the message buffer. -/
def correct (message syndromePoly : List Nat) (errors : List Int) : Except RSError (List Nat) :=
  let coefficientPos := errors.map (fun p => (message.length : Int) - 1 - p)
  let errorLocator := errorLocatorPolynomial coefficientPos
  let errorEval := errorEvaluatorPolynomial syndromePoly.reverse errorLocator errorLocator.length
  let errorPositions := coefficientPos.map (fun c => gfPow 2 (-(256 - c)))
  ((List.range errorPositions.length).foldlM (fun mags i =>
      let err := errorPositions.getD i 0
      let errInv := gfInv err
      let tmp := ((List.range errorPositions.length).filter (fun j => decide (j ≠ i))).map
        (fun j => 1 ^^^ gfMul errInv (errorPositions.getD j 0))
      let deriv := tmp.foldl (fun acc coef => gfMul acc coef) 1
      let y := polyEval errorEval errInv
      (gfDiv y deriv).map (fun magnitude => pySetInt mags (errors.getD i 0) magnitude))
    (List.replicate message.length 0)).map
    (fun mags => polyAdd message mags)

/-- The zero-filled working copy `buffer` built at `decode` entry: every
negative (erasure-sentinel) entry becomes 0. -/
def workingCopy (message : List Int) : List Int :=
  message.map (fun v => if v < 0 then 0 else v)

/-- The erasure positions recorded by the `decode` entry scan: every index
whose received value is negative. -/
def erasurePositions (message : List Int) : List Int :=
  ((List.range message.length).filter (fun p => decide (message.getD p 0 < 0))).map
    Int.ofNat

/-- The Python slice `buffer[:-error_size]`: all symbols before the parity
suffix; for `error_size = 0` the slice `[:-0]` is `[:0]`, the empty list. -/
def pyDropLast (l : List Nat) (t : Nat) : List Nat :=
  if t = 0 then [] else l.take (l.length - t)

/-- `ReedSolomon.decode` on symbol values (the final
`bytearray(...).decode('utf-8')` text wrapper is out of scope per the
spec): erasure scan and `TooManyErasures` guard, syndrome computation,
`max(syndrome) == 0` fast path (Python `max` raises `ValueError` on the
empty syndrome produced by `error_size = 0`), then Forney syndromes,
`findErrors`, and `correct`.  The `error_list is None` check of the source
is dead code (`findErrors` either raises or returns a list). -/
def decode (message : List Int) (errorSize : Nat) : Except RSError (List Nat) :=
  let buffer := workingCopy message
  let erasures := erasurePositions message
  if erasures.length > errorSize then .error .TooManyErasures
  else
    let bufN := buffer.map Int.toNat
    let synd := syndromePolynomial bufN errorSize
    if synd.isEmpty then .error .ValueError
    else if synd.foldl Nat.max 0 = 0 then .ok (pyDropLast bufN errorSize)
    else
      let fs := forneySyndromes synd erasures message.length
      match findErrors fs message.length with
      | .error e => .error e
      | .ok errorList =>
        match correct bufN synd (erasures ++ errorList) with
        | .error e => .error e
        | .ok decoded => .ok (pyDropLast decoded errorSize)

/-! ### Horner evaluation lemmas. -/

/-- The Horner accumulator of `Polynomial.eval`, with an explicit start
value.  `polyEval (c :: p) x = horner x c p`, and starting from 0 gives
`polyEval` on every list. -/
def horner (x v : Nat) (p : List Nat) : Nat :=
  p.foldl (fun val c => gfMul val x ^^^ c) v

/-- XOR `vals[k]` into the buffer at position `pos + k`, for each
`k < len(vals)`: the shape of the inner loops of `encode`, `__mul__` and
`__truediv__`. -/
def xorRange (buffer : List Nat) (pos : Nat) (vals : List Nat) : List Nat :=
  (List.range vals.length).foldl
    (fun b k => b.set (pos + k) (b.getD (pos + k) 0 ^^^ vals.getD k 0)) buffer

/-- The padded vector that `xorRange` XORs onto the buffer. -/
def padVec (pos : Nat) (vals : List Nat) (total : Nat) : List Nat :=
  List.replicate pos 0 ++ vals ++ List.replicate (total - pos - vals.length) 0

/-! ### The decode entry scan and the zero-syndrome fast path. -/

instance {α : Type} [DecidableEq α] : DecidableEq (Except RSError α) := fun a b =>
  match a, b with
  | .error e1, .error e2 =>
    if h : e1 = e2 then .isTrue (by rw [h]) else .isFalse (fun hh => h (by injection hh))
  | .error _, .ok _ => .isFalse (fun hh => Except.noConfusion hh)
  | .ok _, .error _ => .isFalse (fun hh => Except.noConfusion hh)
  | .ok l1, .ok l2 =>
    if h : l1 = l2 then .isTrue (by rw [h]) else .isFalse (fun hh => h (by injection hh))

/-! ### Proofs. -/

/-! ### Facts about the table construction, settled by computation. -/

theorem xtime_lt : ∀ v < 256, xtime v < 256 := by decide

theorem xtime_pos : ∀ v < 256, 0 < v → 0 < xtime v := by decide

theorem xor_left_comm (x y z : Nat) : x ^^^ (y ^^^ z) = y ^^^ (x ^^^ z) := by
  rw [← Nat.xor_assoc, Nat.xor_comm x y, Nat.xor_assoc]

theorem xor_xor_cancel (x y c : Nat) : (x ^^^ c) ^^^ (y ^^^ c) = x ^^^ y := by
  rw [Nat.xor_comm y c, ← Nat.xor_assoc, Nat.xor_assoc x c c, Nat.xor_self, Nat.xor_zero]

theorem shiftLeft_one_xor (a b : Nat) : (a ^^^ b) <<< 1 = a <<< 1 ^^^ b <<< 1 := by
  apply Nat.eq_of_testBit_eq
  intro j
  simp only [Nat.testBit_shiftLeft, Nat.testBit_xor, Bool.and_xor_distrib_left]

/-- The reduction step is GF(2)-linear. -/
theorem xtime_xor (a b : Nat) : xtime (a ^^^ b) = xtime a ^^^ xtime b := by
  unfold xtime
  rw [shiftLeft_one_xor, show ((0x100 : Nat) = 2 ^ 8) from rfl, Nat.and_xor_distrib_right]
  rw [Nat.and_two_pow, Nat.and_two_pow]
  rcases ha : (a <<< 1).testBit 8 <;> rcases hb : (b <<< 1).testBit 8 <;>
    simp only [Bool.toNat_false, Bool.toNat_true, Nat.zero_mul, Nat.one_mul,
      Nat.zero_xor, Nat.xor_zero, Nat.xor_self] <;> simp only [ne_eq] <;> norm_num
  all_goals simp [Nat.xor_assoc, Nat.xor_comm, xor_left_comm, xor_xor_cancel]

theorem pow2_255 : pow2 255 = 1 := by decide

theorem pow2_logT : ∀ v < 256, 0 < v → pow2 (logT v) = v ∧ logT v < 255 := by decide

theorem logT_pow2 : ∀ a < 255, logT (pow2 a) = a := by decide

theorem xtime_small : ∀ v < 128, xtime v = 2 * v := by decide

theorem bit_decomp256 : ∀ x < 256, (if x % 2 = 1 then 1 else 0) ^^^ 2 * (x / 2) = x := by decide

theorem pow2_lt (n : Nat) : pow2 n < 256 := by
  induction n with
  | zero => decide
  | succ n ih => exact xtime_lt _ ih

theorem pow2_pos (n : Nat) : 0 < pow2 n := by
  induction n with
  | zero => decide
  | succ n ih => exact xtime_pos _ (pow2_lt n) ih

theorem GFtable_lt (i : Nat) : GFtable i < 256 := pow2_lt _

theorem GFtable_pos (i : Nat) : 0 < GFtable i := pow2_pos _

theorem fmul_zero_left (y : Nat) : fmul 0 y = 0 := by simp [fmul]

theorem fmul_of_ne (x y : Nat) (h : x ≠ 0) :
    fmul x y = (if x % 2 = 1 then y else 0) ^^^ fmul (x / 2) (xtime y) := by
  conv_lhs => rw [fmul]
  simp [h]

theorem fmul_zero_right (x : Nat) : fmul x 0 = 0 := by
  induction x using Nat.strong_induction_on with
  | _ x ih =>
    by_cases h : x = 0
    · subst h; exact fmul_zero_left 0
    · rw [fmul_of_ne x 0 h, show xtime 0 = 0 from rfl,
        ih (x / 2) (Nat.div_lt_self (Nat.pos_of_ne_zero h) (by decide))]
      simp

theorem fmul_xor (x y z : Nat) : fmul x (y ^^^ z) = fmul x y ^^^ fmul x z := by
  induction x using Nat.strong_induction_on generalizing y z with
  | _ x ih =>
    by_cases h : x = 0
    · subst h; simp [fmul_zero_left]
    · rw [fmul_of_ne x _ h, fmul_of_ne x y h, fmul_of_ne x z h, xtime_xor,
        ih (x / 2) (Nat.div_lt_self (Nat.pos_of_ne_zero h) (by decide))]
      split
      · rw [Nat.xor_assoc, Nat.xor_assoc, xor_left_comm z]
      · simp

theorem fmul_xtime (x y : Nat) : fmul x (xtime y) = xtime (fmul x y) := by
  induction x using Nat.strong_induction_on generalizing y with
  | _ x ih =>
    by_cases h : x = 0
    · subst h; rw [fmul_zero_left, fmul_zero_left, show xtime 0 = 0 from rfl]
    · rw [fmul_of_ne x _ h, fmul_of_ne x y h,
        ih (x / 2) (Nat.div_lt_self (Nat.pos_of_ne_zero h) (by decide)), xtime_xor]
      congr 1
      split
      · rfl
      · rw [show xtime 0 = 0 from rfl]

theorem fmul_one (x : Nat) (hx : x < 256) : fmul x 1 = x := by
  induction x using Nat.strong_induction_on with
  | _ x ih =>
    by_cases h : x = 0
    · subst h; exact fmul_zero_left 1
    · rw [fmul_of_ne x 1 h, fmul_xtime,
        ih (x / 2) (Nat.div_lt_self (Nat.pos_of_ne_zero h) (by decide)) (by omega),
        xtime_small (x / 2) (by omega)]
      exact bit_decomp256 x hx

theorem fmul_pow2 (a b : Nat) : fmul (pow2 a) (pow2 b) = pow2 (a + b) := by
  induction b with
  | zero => exact fmul_one _ (pow2_lt a)
  | succ b ih => rw [show pow2 (b + 1) = xtime (pow2 b) from rfl, fmul_xtime, ih]; rfl

theorem pow2_add_255 (n : Nat) : pow2 (n + 255) = pow2 n := by
  have h := fmul_pow2 n 255
  rw [pow2_255, fmul_one _ (pow2_lt n)] at h
  exact h.symm

theorem pow2_mod255 (n : Nat) : pow2 (n % 255) = pow2 n := by
  induction n using Nat.strong_induction_on with
  | _ n ih =>
    by_cases h : n < 255
    · rw [Nat.mod_eq_of_lt h]
    · have h1 : n = (n - 255) + 255 := by omega
      rw [Nat.mod_eq_sub_mod (by omega), ih (n - 255) (by omega)]
      conv_rhs => rw [h1]
      rw [pow2_add_255]

/-- The table-lookup multiplication agrees with the carry-less one on
field elements. -/
theorem gfMul_eq_fmul (x y : Nat) (hx : x < 256) (hy : y < 256) :
    gfMul x y = fmul x y := by
  unfold gfMul
  split
  · rename_i h
    rcases h with h | h <;> subst h
    · rw [fmul_zero_left]
    · rw [fmul_zero_right]
  · rename_i h
    push_neg at h
    obtain ⟨px, lx⟩ := pow2_logT x hx (Nat.pos_of_ne_zero h.1)
    obtain ⟨py, ly⟩ := pow2_logT y hy (Nat.pos_of_ne_zero h.2)
    rw [GFtable, pow2_mod255, ← fmul_pow2, px, py]

/-! ### Algebra of `gfMul` on field elements. -/

theorem gfMul_lt (x y : Nat) : gfMul x y < 256 := by
  unfold gfMul; split
  · decide
  · exact GFtable_lt _

theorem gfMul_zero_left (y : Nat) : gfMul 0 y = 0 := by simp [gfMul]

theorem gfMul_zero_right (x : Nat) : gfMul x 0 = 0 := by simp [gfMul]

theorem gfMul_comm (x y : Nat) : gfMul x y = gfMul y x := by
  unfold gfMul
  rw [Nat.add_comm]
  by_cases hx : x = 0 <;> by_cases hy : y = 0 <;> simp [hx, hy]

theorem logT_one : logT 1 = 0 := by decide

theorem gfMul_one (x : Nat) (hx : x < 256) : gfMul x 1 = x := by
  unfold gfMul
  split
  · rename_i h
    rcases h with h | h
    · omega
    · omega
  · rename_i h
    push_neg at h
    obtain ⟨px, lx⟩ := pow2_logT x hx (Nat.pos_of_ne_zero h.1)
    rw [logT_one, GFtable, Nat.add_zero, Nat.mod_eq_of_lt lx, px]

theorem one_gfMul (x : Nat) (hx : x < 256) : gfMul 1 x = x := by
  rw [gfMul_comm]; exact gfMul_one x hx

theorem gfMul_ne_zero (x y : Nat) (hx : x ≠ 0) (hy : y ≠ 0) : gfMul x y ≠ 0 := by
  unfold gfMul
  split
  · rename_i h; rcases h with h | h <;> omega
  · have := GFtable_pos (logT x + logT y); omega

theorem logT_GFtable (i : Nat) : logT (GFtable i) = i % 255 :=
  logT_pow2 (i % 255) (Nat.mod_lt _ (by decide))

theorem GFtable_eq_iff_mod (i j : Nat) (h : i % 255 = j % 255) : GFtable i = GFtable j := by
  unfold GFtable; rw [h]

theorem gfMul_GFtable (i j : Nat) : gfMul (GFtable i) (GFtable j) = GFtable (i + j) := by
  unfold gfMul
  split
  · rename_i h
    have hi := GFtable_pos i
    have hj := GFtable_pos j
    rcases h with h | h <;> omega
  · rw [logT_GFtable, logT_GFtable]
    exact GFtable_eq_iff_mod _ _ (by omega)

theorem eq_GFtable_logT (x : Nat) (hx : x < 256) (h0 : x ≠ 0) : x = GFtable (logT x) := by
  obtain ⟨px, lx⟩ := pow2_logT x hx (Nat.pos_of_ne_zero h0)
  rw [GFtable, Nat.mod_eq_of_lt lx, px]

theorem gfMul_eq_GFtable (x y : Nat) (hx0 : x ≠ 0) (hy0 : y ≠ 0) :
    gfMul x y = GFtable (logT x + logT y) := by
  unfold gfMul; split
  · rename_i h; rcases h with h | h <;> omega
  · rfl

theorem gfMul_assoc (x y z : Nat) (hx : x < 256) (hy : y < 256) (hz : z < 256) :
    gfMul (gfMul x y) z = gfMul x (gfMul y z) := by
  by_cases h0 : x = 0 ∨ y = 0 ∨ z = 0
  · rcases h0 with h | h | h <;> subst h <;>
      simp [gfMul_zero_left, gfMul_zero_right]
  · push_neg at h0
    obtain ⟨hx0, hy0, hz0⟩ := h0
    rw [gfMul_eq_GFtable x y hx0 hy0, gfMul_eq_GFtable y z hy0 hz0]
    conv_lhs => rw [eq_GFtable_logT z hz hz0]
    conv_rhs => rw [eq_GFtable_logT x hx hx0]
    rw [gfMul_GFtable, gfMul_GFtable]
    exact GFtable_eq_iff_mod _ _ (by omega)

theorem gfMul_xor_right (x y z : Nat) (hx : x < 256) (hy : y < 256) (hz : z < 256) :
    gfMul x (y ^^^ z) = gfMul x y ^^^ gfMul x z := by
  have hyz : y ^^^ z < 256 :=
    Nat.xor_lt_two_pow (n := 8) (by omega) (by omega)
  rw [gfMul_eq_fmul x _ hx hyz, gfMul_eq_fmul x y hx hy, gfMul_eq_fmul x z hx hz, fmul_xor]

theorem gfMul_xor_left (x y z : Nat) (hx : x < 256) (hy : y < 256) (hz : z < 256) :
    gfMul (x ^^^ y) z = gfMul x z ^^^ gfMul y z := by
  rw [gfMul_comm, gfMul_xor_right z x y hz hx hy, gfMul_comm z x, gfMul_comm z y]

theorem fpow_lt (a k : Nat) : fpow a k < 256 := by
  cases k with
  | zero => exact (by decide : (1 : Nat) < 256)
  | succ k => exact gfMul_lt _ _

/-! ### List access helpers. -/

theorem xor_lt_256 {x y : Nat} (hx : x < 256) (hy : y < 256) : x ^^^ y < 256 := by
  have e : (256 : Nat) = 2 ^ 8 := by norm_num
  rw [e] at hx hy ⊢
  exact Nat.xor_lt_two_pow hx hy

theorem getD_set_self {l : List Nat} {i : Nat} {v : Nat} (h : i < l.length) :
    (l.set i v).getD i 0 = v := by
  simp [List.getD_eq_getElem?_getD, List.getElem?_set_self h]

theorem getD_set_ne {l : List Nat} {i k : Nat} {v : Nat} (h : i ≠ k) :
    (l.set i v).getD k 0 = l.getD k 0 := by
  simp [List.getD_eq_getElem?_getD, List.getElem?_set_ne h]

theorem getD_append_left {l₁ l₂ : List Nat} {k : Nat} (h : k < l₁.length) :
    (l₁ ++ l₂).getD k 0 = l₁.getD k 0 := by
  simp [List.getD_eq_getElem?_getD, List.getElem?_append_left h]

theorem getD_append_right {l₁ l₂ : List Nat} {k : Nat} (h : l₁.length ≤ k) :
    (l₁ ++ l₂).getD k 0 = l₂.getD (k - l₁.length) 0 := by
  simp [List.getD_eq_getElem?_getD, List.getElem?_append_right h]

theorem getD_replicate_zero {n k : Nat} : (List.replicate n 0).getD k 0 = 0 := by
  simp [List.getD_eq_getElem?_getD, List.getElem?_replicate]
  split <;> rfl

theorem getD_of_ge {l : List Nat} {k : Nat} (h : l.length ≤ k) : l.getD k 0 = 0 := by
  simp [List.getD_eq_getElem?_getD, List.getElem?_eq_none h]

theorem getD_lt_of_bounded {l : List Nat} (hb : ∀ c ∈ l, c < 256) (k : Nat) :
    l.getD k 0 < 256 := by
  by_cases h : k < l.length
  · rw [List.getD_eq_getElem?_getD, List.getElem?_eq_getElem h]
    exact hb _ (List.getElem_mem h)
  · rw [getD_of_ge (by omega)]; decide

theorem polyEval_eq_horner (x : Nat) : ∀ p : List Nat, polyEval p x = horner x 0 p
  | [] => rfl
  | c :: rest => by
    show horner x c rest = horner x 0 (c :: rest)
    unfold horner
    rw [List.foldl_cons, gfMul_zero_left, Nat.zero_xor]

theorem horner_append (x v : Nat) (p q : List Nat) :
    horner x v (p ++ q) = horner x (horner x v p) q := by
  unfold horner
  rw [List.foldl_append]

theorem horner_lt (x : Nat) : ∀ (p : List Nat) (v : Nat), v < 256 → (∀ c ∈ p, c < 256) →
    horner x v p < 256
  | [], v, hv, hp => hv
  | c :: rest, v, hv, hp =>
    horner_lt x rest _
      (xor_lt_256 (gfMul_lt v x) (hp c (List.mem_cons_self c rest)))
      (fun e he => hp e (List.mem_cons_of_mem c he))

theorem polyEval_lt_of_bounded {p : List Nat} (hb : ∀ c ∈ p, c < 256) (x : Nat) :
    polyEval p x < 256 := by
  rw [polyEval_eq_horner]
  exact horner_lt x p 0 (by decide) hb

theorem horner_replicate_zero (x : Nat) : ∀ k, horner x 0 (List.replicate k 0) = 0
  | 0 => rfl
  | k + 1 => by
    show horner x (gfMul 0 x ^^^ 0) (List.replicate k 0) = 0
    rw [gfMul_zero_left]
    exact horner_replicate_zero x k

theorem polyEval_replicate_zero (x k : Nat) : polyEval (List.replicate k 0) x = 0 := by
  rw [polyEval_eq_horner]; exact horner_replicate_zero x k

theorem polyEval_replicate_append (x k : Nat) (p : List Nat) :
    polyEval (List.replicate k 0 ++ p) x = polyEval p x := by
  rw [polyEval_eq_horner, horner_append, horner_replicate_zero, ← polyEval_eq_horner]

/-- Shifting the Horner start value out: evaluation from `v` is evaluation
from 0 plus `v * x^len`. -/
theorem horner_shift (x : Nat) (hx : x < 256) :
    ∀ (p : List Nat) (v : Nat), v < 256 → (∀ c ∈ p, c < 256) →
      horner x v p = gfMul v (fpow x p.length) ^^^ horner x 0 p
  | [], v, hv, hp => by
    show v = gfMul v (fpow x 0) ^^^ 0
    rw [Nat.xor_zero, show fpow x 0 = 1 from rfl, gfMul_one v hv]
  | c :: p, v, hv, hp => by
    have hc : c < 256 := hp c (List.mem_cons_self c p)
    have hp' : ∀ d ∈ p, d < 256 := fun d hd => hp d (List.mem_cons_of_mem c hd)
    show horner x (gfMul v x ^^^ c) p = gfMul v (fpow x (p.length + 1)) ^^^ horner x 0 (c :: p)
    rw [horner_shift x hx p _ (xor_lt_256 (gfMul_lt v x) hc) hp',
      show horner x 0 (c :: p) = horner x c p from (polyEval_eq_horner x (c :: p)).symm,
      horner_shift x hx p c hc hp',
      gfMul_xor_left _ _ _ (gfMul_lt v x) hc (fpow_lt x p.length),
      show fpow x (p.length + 1) = gfMul x (fpow x p.length) from rfl,
      ← gfMul_assoc v x _ hv hx (fpow_lt x p.length), Nat.xor_assoc]

/-- Evaluation of a concatenation. -/
theorem polyEval_append {u w : List Nat} {x : Nat} (hx : x < 256)
    (hu : ∀ c ∈ u, c < 256) (hw : ∀ c ∈ w, c < 256) :
    polyEval (u ++ w) x = gfMul (polyEval u x) (fpow x w.length) ^^^ polyEval w x := by
  rw [polyEval_eq_horner, horner_append, ← polyEval_eq_horner,
    horner_shift x hx w (polyEval u x) (polyEval_lt_of_bounded hu x) hw,
    ← polyEval_eq_horner]

/-- Evaluation is XOR-linear in the coefficient list. -/
theorem horner_zipWith_xor (x : Nat) (hx : x < 256) :
    ∀ (u v : List Nat) (a b : Nat), u.length = v.length →
      a < 256 → b < 256 → (∀ c ∈ u, c < 256) → (∀ c ∈ v, c < 256) →
      horner x (a ^^^ b) (List.zipWith (· ^^^ ·) u v) = horner x a u ^^^ horner x b v
  | [], [], a, b, hl, ha, hb, hu, hv => rfl
  | [], d :: v, a, b, hl, ha, hb, hu, hv => by simp at hl
  | c :: u, [], a, b, hl, ha, hb, hu, hv => by simp at hl
  | c :: u, d :: v, a, b, hl, ha, hb, hu, hv => by
    have hc : c < 256 := hu c (List.mem_cons_self c u)
    have hd : d < 256 := hv d (List.mem_cons_self d v)
    show horner x (gfMul (a ^^^ b) x ^^^ (c ^^^ d)) (List.zipWith (· ^^^ ·) u v) = _
    rw [gfMul_xor_left a b x ha hb hx,
      show (gfMul a x ^^^ gfMul b x) ^^^ (c ^^^ d)
        = (gfMul a x ^^^ c) ^^^ (gfMul b x ^^^ d) from by
        rw [Nat.xor_assoc, Nat.xor_assoc, xor_left_comm c]]
    exact horner_zipWith_xor x hx u v _ _ (by simpa using hl)
      (xor_lt_256 (gfMul_lt a x) hc) (xor_lt_256 (gfMul_lt b x) hd)
      (fun e he => hu e (List.mem_cons_of_mem c he))
      (fun e he => hv e (List.mem_cons_of_mem d he))

theorem polyEval_zipWith_xor {u v : List Nat} {x : Nat} (hx : x < 256)
    (hl : u.length = v.length) (hu : ∀ c ∈ u, c < 256) (hv : ∀ c ∈ v, c < 256) :
    polyEval (List.zipWith (· ^^^ ·) u v) x = polyEval u x ^^^ polyEval v x := by
  rw [polyEval_eq_horner, polyEval_eq_horner, polyEval_eq_horner,
    show (0 : Nat) = 0 ^^^ 0 from rfl]
  exact horner_zipWith_xor x hx u v 0 0 hl (by decide) (by decide) hu hv

/-- Evaluation of a scaled polynomial (`Polynomial.scale` shape). -/
theorem horner_map_mul (x k : Nat) (hx : x < 256) (hk : k < 256) :
    ∀ (p : List Nat) (v : Nat), v < 256 → (∀ c ∈ p, c < 256) →
      horner x (gfMul v k) (p.map (fun c => gfMul c k)) = gfMul (horner x v p) k
  | [], v, hv, hp => rfl
  | c :: p, v, hv, hp => by
    have hc : c < 256 := hp c (List.mem_cons_self c p)
    show horner x (gfMul (gfMul v k) x ^^^ gfMul c k) (p.map (fun c => gfMul c k)) = _
    rw [show gfMul (gfMul v k) x = gfMul (gfMul v x) k from by
        rw [gfMul_assoc v k x hv hk hx, gfMul_assoc v x k hv hx hk, gfMul_comm k x],
      ← gfMul_xor_left _ c k (gfMul_lt v x) hc hk]
    exact horner_map_mul x k hx hk p _ (xor_lt_256 (gfMul_lt v x) hc)
      (fun e he => hp e (List.mem_cons_of_mem c he))

theorem polyEval_map_mul {p : List Nat} {x k : Nat} (hx : x < 256) (hk : k < 256)
    (hp : ∀ c ∈ p, c < 256) :
    polyEval (p.map (fun c => gfMul c k)) x = gfMul (polyEval p x) k := by
  rw [polyEval_eq_horner, polyEval_eq_horner, show (0 : Nat) = gfMul 0 k from (gfMul_zero_left k).symm]
  exact horner_map_mul x k hx hk p 0 (by decide) hp

/-! ### The common accumulation-loop shape of the source: XOR a vector of
values into a buffer starting at some offset. -/

theorem foldl_invariant {α β : Type} (P : β → Prop) (f : β → α → β) :
    ∀ (l : List α) (acc : β), P acc → (∀ b y, P b → y ∈ l → P (f b y)) → P (l.foldl f acc)
  | [], acc, hacc, hf => hacc
  | y :: l, acc, hacc, hf =>
    foldl_invariant P f l (f acc y) (hf acc y hacc (List.mem_cons_self y l))
      (fun b z hb hz => hf b z hb (List.mem_cons_of_mem y hz))

theorem foldl_const {α β : Type} (acc : β) : ∀ l : List α, l.foldl (fun b _ => b) acc = acc
  | [] => rfl
  | y :: l => foldl_const acc l

theorem set_getD_self : ∀ (l : List Nat) (i : Nat), l.set i (l.getD i 0) = l
  | [], i => rfl
  | c :: l, 0 => rfl
  | c :: l, i + 1 => congrArg (c :: ·) (set_getD_self l i)

theorem xorRange_nil (buffer : List Nat) (pos : Nat) : xorRange buffer pos [] = buffer := rfl

theorem xorRange_cons (buffer : List Nat) (pos : Nat) (v : Nat) (vs : List Nat) :
    xorRange buffer pos (v :: vs)
      = xorRange (buffer.set pos (buffer.getD pos 0 ^^^ v)) (pos + 1) vs := by
  unfold xorRange
  rw [show (v :: vs).length = vs.length + 1 from rfl, List.range_succ_eq_map,
    List.foldl_cons, List.foldl_map]
  rw [show (buffer.set (pos + 0) (buffer.getD (pos + 0) 0 ^^^ (v :: vs).getD 0 0))
      = (buffer.set pos (buffer.getD pos 0 ^^^ v)) from by rw [Nat.add_zero]; rfl]
  apply List.foldl_ext
  intro b k hk
  have h1 : pos + Nat.succ k = (pos + 1) + k := by omega
  have h2 : (v :: vs).getD (Nat.succ k) 0 = vs.getD k 0 := rfl
  rw [h1, h2]

theorem xorRange_length (vals : List Nat) :
    ∀ (buffer : List Nat) (pos : Nat), (xorRange buffer pos vals).length = buffer.length := by
  induction vals with
  | nil => intro buffer pos; rfl
  | cons v vs ih =>
    intro buffer pos
    rw [xorRange_cons, ih, List.length_set]

theorem xorRange_getD (vals : List Nat) :
    ∀ (buffer : List Nat) (pos : Nat), pos + vals.length ≤ buffer.length → ∀ k,
      (xorRange buffer pos vals).getD k 0
        = buffer.getD k 0 ^^^
          (if pos ≤ k ∧ k < pos + vals.length then vals.getD (k - pos) 0 else 0) := by
  induction vals with
  | nil =>
    intro buffer pos h k
    rw [xorRange_nil]
    simp
  | cons v vs ih =>
    intro buffer pos h k
    rw [xorRange_cons,
      ih _ (pos + 1) (by rw [List.length_set]; simp at h; omega) k]
    by_cases hk : pos = k
    · subst hk
      rw [getD_set_self (by simp at h; omega)]
      have hc1 : ¬(pos + 1 ≤ pos ∧ pos < pos + 1 + vs.length) := by omega
      have hc2 : pos ≤ pos ∧ pos < pos + (v :: vs).length := by
        refine ⟨Nat.le_refl pos, ?_⟩
        simp only [List.length_cons]
        omega
      rw [if_neg hc1, if_pos hc2, Nat.xor_zero, Nat.sub_self]
      rfl
    · rw [getD_set_ne hk]
      congr 1
      by_cases hin : pos + 1 ≤ k ∧ k < pos + 1 + vs.length
      · have hin' : pos ≤ k ∧ k < pos + (v :: vs).length := by
          simp only [List.length_cons]; omega
        rw [if_pos hin, if_pos hin']
        have hd : k - pos = (k - (pos + 1)) + 1 := by omega
        rw [hd]
        rfl
      · have hin' : ¬(pos ≤ k ∧ k < pos + (v :: vs).length) := by
          simp only [List.length_cons]; omega
        rw [if_neg hin, if_neg hin']

theorem xorRange_bounded (vals : List Nat) :
    ∀ (buffer : List Nat) (pos : Nat), (∀ c ∈ buffer, c < 256) →
      (∀ j, vals.getD j 0 < 256) → ∀ c ∈ xorRange buffer pos vals, c < 256 := by
  induction vals with
  | nil => intro buffer pos hb hv; exact hb
  | cons v vs ih =>
    intro buffer pos hb hv
    rw [xorRange_cons]
    refine ih _ (pos + 1) (fun c hc => ?_) (fun j => hv (j + 1))
    rcases List.mem_or_eq_of_mem_set hc with h | h
    · exact hb c h
    · subst h
      exact xor_lt_256 (getD_lt_of_bounded hb pos) (hv 0)

/-- When every value is 0 the loop leaves the buffer unchanged (the shape
taken by `__mul__`/`__truediv__` when the relevant divisor/multiplier
coefficient is 0). -/
theorem xorRange_zero_vals (vals : List Nat) :
    ∀ (buffer : List Nat) (pos : Nat), (∀ j, vals.getD j 0 = 0) →
      xorRange buffer pos vals = buffer := by
  induction vals with
  | nil => intro buffer pos h; rfl
  | cons v vs ih =>
    intro buffer pos h
    rw [xorRange_cons, show v = 0 from h 0, Nat.xor_zero, set_getD_self]
    exact ih _ (pos + 1) (fun j => h (j + 1))

theorem padVec_length {pos total : Nat} {vals : List Nat}
    (h : pos + vals.length ≤ total) : (padVec pos vals total).length = total := by
  unfold padVec
  simp
  omega

theorem padVec_getD {pos total : Nat} {vals : List Nat} (k : Nat) :
    (padVec pos vals total).getD k 0
      = if pos ≤ k ∧ k < pos + vals.length then vals.getD (k - pos) 0 else 0 := by
  unfold padVec
  by_cases h1 : k < pos
  · rw [@getD_append_left (List.replicate pos 0 ++ vals) _ k (by simp; omega),
      @getD_append_left (List.replicate pos 0) vals k (by simp; omega),
      getD_replicate_zero, if_neg (by omega)]
  · by_cases h2 : k - pos < vals.length
    · rw [@getD_append_left (List.replicate pos 0 ++ vals) _ k (by simp; omega),
        @getD_append_right (List.replicate pos 0) vals k (by simp; omega),
        List.length_replicate, if_pos (by omega)]
    · rw [@getD_append_right (List.replicate pos 0 ++ vals) _ k (by simp; omega),
        getD_replicate_zero, if_neg (by omega)]

theorem padVec_bounded {pos total : Nat} {vals : List Nat}
    (hv : ∀ j, vals.getD j 0 < 256) : ∀ j, (padVec pos vals total).getD j 0 < 256 := by
  intro j
  rw [padVec_getD]
  split
  · exact hv _
  · decide

theorem zipWith_xor_getD : ∀ (u v : List Nat), u.length = v.length → ∀ k,
    (List.zipWith (· ^^^ ·) u v).getD k 0 = u.getD k 0 ^^^ v.getD k 0
  | [], [], h, k => by simp
  | [], d :: v, h, k => by simp at h
  | c :: u, [], h, k => by simp at h
  | c :: u, d :: v, h, 0 => rfl
  | c :: u, d :: v, h, k + 1 => zipWith_xor_getD u v (by simpa using h) k

theorem getElem_eq_getD {l : List Nat} {i : Nat} (h : i < l.length) : l[i] = l.getD i 0 := by
  rw [List.getD_eq_getElem?_getD, List.getElem?_eq_getElem h]
  rfl

/-- The loop is one big XOR with the padded value vector. -/
theorem xorRange_eq_zipPad {buffer vals : List Nat} {pos : Nat}
    (h : pos + vals.length ≤ buffer.length) :
    xorRange buffer pos vals
      = List.zipWith (· ^^^ ·) buffer (padVec pos vals buffer.length) := by
  apply List.ext_getElem
  · rw [xorRange_length, List.length_zipWith, padVec_length h, Nat.min_self]
  · intro i h1 h2
    rw [getElem_eq_getD h1, getElem_eq_getD h2, xorRange_getD vals buffer pos h i,
      zipWith_xor_getD buffer _ (padVec_length h).symm i, padVec_getD]

theorem zipWith_xor_length {u v : List Nat} (h : u.length = v.length) :
    (List.zipWith (· ^^^ ·) u v).length = u.length := by
  rw [List.length_zipWith, h, Nat.min_self]

theorem bounded_of_getD {l : List Nat} (h : ∀ j, l.getD j 0 < 256) : ∀ c ∈ l, c < 256 := by
  intro c hc
  obtain ⟨i, hi, rfl⟩ := List.mem_iff_getElem.mp hc
  rw [getElem_eq_getD hi]
  exact h i

theorem zipWith_xor_bounded : ∀ (u v : List Nat), (∀ c ∈ u, c < 256) →
    (∀ j, v.getD j 0 < 256) → ∀ c ∈ List.zipWith (· ^^^ ·) u v, c < 256
  | [], v, hu, hv => by simp
  | c :: u, [], hu, hv => by simp
  | c :: u, d :: v, hu, hv => by
    intro e he
    rcases List.mem_cons.mp he with h | h
    · subst h
      exact xor_lt_256 (hu c (List.mem_cons_self c u)) (hv 0)
    · exact zipWith_xor_bounded u v (fun e' he' => hu e' (List.mem_cons_of_mem c he'))
        (fun j => hv (j + 1)) e h

theorem zipWith_xor_zero_left : ∀ (l : List Nat) (n : Nat), l.length = n →
    List.zipWith (· ^^^ ·) (List.replicate n 0) l = l
  | [], 0, h => rfl
  | [], n + 1, h => by simp at h
  | c :: l, 0, h => by simp at h
  | c :: l, n + 1, h => by
    rw [List.replicate_succ, List.zipWith_cons_cons, Nat.zero_xor]
    exact congrArg (c :: ·) (zipWith_xor_zero_left l n (by simpa using h))

theorem getD_map {f : Nat → Nat} {a : List Nat} {k : Nat} (h : k < a.length) :
    (a.map f).getD k 0 = f (a.getD k 0) := by
  rw [List.getD_eq_getElem?_getD, List.getElem?_map, List.getElem?_eq_getElem h]
  rw [getElem_eq_getD h]
  rfl

theorem map_gfMul_getD_lt (a : List Nat) (d : Nat) :
    ∀ j, (a.map (fun c => gfMul c d)).getD j 0 < 256 := by
  intro j
  by_cases h : j < a.length
  · rw [getD_map h]; exact gfMul_lt _ _
  · rw [getD_of_ge (by simpa using Nat.le_of_not_lt h)]; decide

theorem map_gfMul_one {p : List Nat} (hp : ∀ c ∈ p, c < 256) :
    p.map (fun d => gfMul d 1) = p := by
  have h : p.map (fun d => gfMul d 1) = p.map id :=
    List.map_congr_left (fun d hd => gfMul_one d (hp d hd))
  rw [h, List.map_id]

/-! ### Characterising `polyMul`. -/

/-- The double loop of `__mul__` as iterated `xorRange` passes. -/
theorem polyMul_eq_fold (a b : List Nat) :
    polyMul a b = (List.range b.length).foldl
      (fun mul posY => xorRange mul posY (a.map (fun c => gfMul c (b.getD posY 0))))
      (List.replicate (a.length + b.length - 1) 0) := by
  unfold polyMul xorRange
  apply List.foldl_ext
  intro mul posY hy
  rw [List.length_map]
  apply List.foldl_ext
  intro m posX hx
  rw [getD_map (List.mem_range.mp hx)]

theorem polyMul_length (a b : List Nat) :
    (polyMul a b).length = a.length + b.length - 1 := by
  rw [polyMul_eq_fold]
  exact foldl_invariant (fun l : List Nat => l.length = a.length + b.length - 1) _ _ _
    (List.length_replicate _ _)
    (fun l y hl hy => by simp only [xorRange_length]; exact hl)

theorem polyMul_bounded (a b : List Nat) : ∀ c ∈ polyMul a b, c < 256 := by
  rw [polyMul_eq_fold]
  exact foldl_invariant (fun l : List Nat => ∀ c ∈ l, c < 256) _ _ _
    (fun c hc => by rw [List.eq_of_mem_replicate hc]; decide)
    (fun l y hl hy => xorRange_bounded _ l y hl (map_gfMul_getD_lt a _))

/-- Multiplication by a length-2 polynomial `[1, c]`, fully unrolled. -/
theorem polyMul_pair (p : List Nat) (c : Nat) :
    polyMul p [1, c]
      = xorRange (xorRange (List.replicate (p.length + 1) 0) 0 (p.map (fun d => gfMul d 1)))
          1 (p.map (fun d => gfMul d c)) := by
  rw [polyMul_eq_fold]
  rfl

theorem polyMul_pair_length (p : List Nat) (c : Nat) :
    (polyMul p [1, c]).length = p.length + 1 := by
  rw [polyMul_length]
  simp

theorem polyMul_pair_eval {p : List Nat} {c a : Nat} (hp : ∀ e ∈ p, e < 256)
    (hc : c < 256) (ha : a < 256) :
    polyEval (polyMul p [1, c]) a = gfMul (polyEval p a) (a ^^^ c) := by
  rw [polyMul_pair]
  have hl0 : (p.map (fun d => gfMul d 1)).length = p.length := List.length_map p _
  have hl1 : (p.map (fun d => gfMul d c)).length = p.length := List.length_map p _
  have hb0 : ∀ j, (p.map (fun d => gfMul d 1)).getD j 0 < 256 := map_gfMul_getD_lt p 1
  have hb1 : ∀ j, (p.map (fun d => gfMul d c)).getD j 0 < 256 := map_gfMul_getD_lt p c
  have hrep : ∀ e ∈ List.replicate (p.length + 1) 0, e < 256 :=
    fun e he => by rw [List.eq_of_mem_replicate he]; decide
  have hM1eq : xorRange (List.replicate (p.length + 1) 0) 0 (p.map (fun d => gfMul d 1))
      = padVec 0 (p.map (fun d => gfMul d 1)) (p.length + 1) := by
    rw [xorRange_eq_zipPad (by rw [hl0, List.length_replicate]; omega), List.length_replicate]
    exact zipWith_xor_zero_left _ _ (padVec_length (by rw [hl0]; omega))
  have hM1len : (xorRange (List.replicate (p.length + 1) 0)
      0 (p.map (fun d => gfMul d 1))).length = p.length + 1 := by
    rw [xorRange_length, List.length_replicate]
  have hM1b : ∀ e ∈ xorRange (List.replicate (p.length + 1) 0) 0 (p.map (fun d => gfMul d 1)),
      e < 256 := xorRange_bounded _ _ _ hrep hb0
  have hpadb : ∀ e ∈ padVec 1 (p.map (fun d => gfMul d c)) (p.length + 1), e < 256 :=
    bounded_of_getD (padVec_bounded hb1)
  have hpad0 : padVec 0 (p.map (fun d => gfMul d 1)) (p.length + 1)
      = p.map (fun d => gfMul d 1) ++ List.replicate 1 0 := by
    unfold padVec
    rw [hl0, show p.length + 1 - 0 - p.length = 1 from by omega,
      List.replicate_zero, List.nil_append]
  have hpad1 : padVec 1 (p.map (fun d => gfMul d c)) (p.length + 1)
      = List.replicate 1 0 ++ p.map (fun d => gfMul d c) := by
    unfold padVec
    rw [hl1, show p.length + 1 - 1 - p.length = 0 from by omega,
      List.replicate_zero, List.append_nil]
  have hZ : 1 + (p.map (fun d => gfMul d c)).length
      ≤ (xorRange (List.replicate (p.length + 1) 0) 0 (p.map (fun d => gfMul d 1))).length := by
    rw [hl1, hM1len]
    omega
  rw [xorRange_eq_zipPad hZ, hM1len,
    polyEval_zipWith_xor ha
      (by rw [hM1len, padVec_length (by rw [hl1]; omega)]) hM1b hpadb,
    hM1eq, hpad0, hpad1, polyEval_replicate_append,
    polyEval_append ha (bounded_of_getD hb0) (fun e he => by
      rw [List.eq_of_mem_replicate he]; decide),
    List.length_replicate, polyEval_replicate_zero, Nat.xor_zero,
    polyEval_map_mul ha (by decide) hp, polyEval_map_mul ha hc hp,
    gfMul_one _ (polyEval_lt_of_bounded hp a),
    show fpow a 1 = gfMul a 1 from rfl, gfMul_one a ha,
    ← gfMul_xor_right _ a c (polyEval_lt_of_bounded hp a) ha hc]

theorem polyMul_pair_head {p : List Nat} {c : Nat} (hp : ∀ e ∈ p, e < 256)
    (hne : 0 < p.length) : (polyMul p [1, c]).getD 0 0 = p.getD 0 0 := by
  rw [polyMul_pair]
  have hl0 : (p.map (fun d => gfMul d 1)).length = p.length := List.length_map p _
  have hl1 : (p.map (fun d => gfMul d c)).length = p.length := List.length_map p _
  have hM1len : (xorRange (List.replicate (p.length + 1) 0)
      0 (p.map (fun d => gfMul d 1))).length = p.length + 1 := by
    rw [xorRange_length, List.length_replicate]
  rw [xorRange_getD _ _ 1 (by rw [hl1, hM1len]; omega) 0,
    if_neg (by omega), Nat.xor_zero,
    xorRange_getD _ _ 0 (by rw [hl0, List.length_replicate]; omega) 0,
    if_pos (by rw [hl0]; omega), getD_replicate_zero, Nat.zero_xor, Nat.sub_zero,
    getD_map hne, gfMul_one _ (getD_lt_of_bounded hp 0)]

/-! ### Multiplication and division by the monomials `Polynomial([1] + [0]*k)`. -/

theorem xpow_length (k : Nat) : (xpow k).length = k + 1 := by
  unfold xpow
  simp

theorem xpow_getD_succ (k j : Nat) : (xpow k).getD (j + 1) 0 = 0 := by
  show (List.replicate k 0).getD j 0 = 0
  exact getD_replicate_zero

theorem map_gfMul_zero_getD (a : List Nat) : ∀ j, (a.map (fun c => gfMul c 0)).getD j 0 = 0 := by
  intro j
  by_cases h : j < a.length
  · rw [getD_map h, gfMul_zero_right]
  · exact getD_of_ge (by simpa using Nat.le_of_not_lt h)

/-- Multiplying by the monomial just appends `k` zero coefficients. -/
theorem polyMul_xpow {q : List Nat} (hq : ∀ c ∈ q, c < 256) (k : Nat) :
    polyMul q (xpow k) = q ++ List.replicate k 0 := by
  rw [polyMul_eq_fold, xpow_length,
    show q.length + (k + 1) - 1 = q.length + k from by omega,
    List.range_succ_eq_map, List.foldl_cons, List.foldl_map]
  have hstep : ∀ (acc : List Nat) (j : Nat), j ∈ List.range k →
      xorRange acc (Nat.succ j) (q.map (fun c => gfMul c ((xpow k).getD (Nat.succ j) 0)))
        = acc := by
    intro acc j hj
    rw [show (xpow k).getD (Nat.succ j) 0 = 0 from xpow_getD_succ k j]
    exact xorRange_zero_vals _ _ _ (map_gfMul_zero_getD q)
  rw [List.foldl_ext _ (fun (acc : List Nat) (_ : Nat) => acc) _ hstep, foldl_const]
  have h0 : (xpow k).getD 0 0 = 1 := rfl
  rw [h0]
  have hZ : 0 + (q.map (fun c => gfMul c 1)).length
      ≤ (List.replicate (q.length + k) 0).length := by
    simp
  rw [xorRange_eq_zipPad hZ, List.length_replicate,
    zipWith_xor_zero_left _ _ (padVec_length (by simp)), padVec,
    map_gfMul_one hq, List.replicate_zero, List.nil_append,
    show q.length + k - 0 - q.length = k from by omega]

/-- Synthetic division by the monomial is a pure slice: the inner loop
multiplies only by the zero coefficients of the divisor. -/
theorem polyDiv_xpow (a : List Nat) (k : Nat) :
    polyDiv a (xpow k)
      = if k = 0 then ([], a)
        else (a.take (a.length - k), a.drop (a.length - k)) := by
  unfold polyDiv
  rw [xpow_length, show k + 1 - 1 = k from by omega]
  have hinner : ∀ (num : List Nat) (posX : Nat), posX ∈ List.range (a.length - (k + 1) - 1) →
      (List.range k).foldl (fun n j =>
        n.set (posX + (j + 1)) (n.getD (posX + (j + 1)) 0 ^^^
          gfMul ((xpow k).getD (j + 1) 0) (n.getD posX 0))) num = num := by
    intro num posX hx
    have hstep : ∀ (n : List Nat) (j : Nat), j ∈ List.range k →
        n.set (posX + (j + 1)) (n.getD (posX + (j + 1)) 0 ^^^
          gfMul ((xpow k).getD (j + 1) 0) (n.getD posX 0)) = n := by
      intro n j hj
      rw [xpow_getD_succ, gfMul_zero_left, Nat.xor_zero, set_getD_self]
    rw [List.foldl_ext _ (fun (n : List Nat) (_ : Nat) => n) _ hstep, foldl_const]
  rw [List.foldl_ext _ (fun (num : List Nat) (_ : Nat) => num) _ hinner, foldl_const]

/-! ### The generator polynomial. -/

theorem generator_succ (t : Nat) :
    generator (t + 1) = polyMul (generator t) [1, GFtable t] := by
  unfold generator
  rw [List.range_succ, List.foldl_append]
  rfl

theorem generator_length (t : Nat) : (generator t).length = t + 1 := by
  induction t with
  | zero => rfl
  | succ t ih => rw [generator_succ, polyMul_pair_length, ih]

theorem generator_bounded (t : Nat) : ∀ c ∈ generator t, c < 256 := by
  cases t with
  | zero =>
    intro c hc
    rw [show generator 0 = [1] from rfl] at hc
    simp at hc
    omega
  | succ t =>
    rw [generator_succ]
    exact polyMul_bounded _ _

theorem generator_head (t : Nat) : (generator t).getD 0 0 = 1 := by
  induction t with
  | zero => rfl
  | succ t ih =>
    rw [generator_succ,
      polyMul_pair_head (generator_bounded t) (by rw [generator_length]; omega), ih]

/-- Every `GF[i]` with `i < error_size` is a root of the generator. -/
theorem generator_root (t : Nat) : ∀ i < t, polyEval (generator t) (GFtable i) = 0 := by
  induction t with
  | zero => intro i hi; omega
  | succ t ih =>
    intro i hi
    rw [generator_succ,
      polyMul_pair_eval (generator_bounded t) (GFtable_lt t) (GFtable_lt i)]
    by_cases h : i < t
    · rw [ih i h, gfMul_zero_left]
    · rw [show i = t from by omega, Nat.xor_self, gfMul_zero_right]

/-! ### `polyAdd` lemmas. -/

theorem zipWith_xor_cancel : ∀ (u v : List Nat), u.length = v.length →
    List.zipWith (· ^^^ ·) (List.zipWith (· ^^^ ·) u v) v = u
  | [], [], h => rfl
  | [], d :: v, h => by simp at h
  | c :: u, [], h => by simp at h
  | c :: u, d :: v, h => by
    rw [List.zipWith_cons_cons, List.zipWith_cons_cons, Nat.xor_assoc, Nat.xor_self,
      Nat.xor_zero]
    exact congrArg (c :: ·) (zipWith_xor_cancel u v (by simpa using h))

/-- `__add__` when the second operand is no longer than the first: the
first operand needs no padding. -/
theorem polyAdd_of_le {a b : List Nat} (h : b.length ≤ a.length) :
    polyAdd a b
      = a.take (a.length - b.length)
        ++ List.zipWith (· ^^^ ·) (a.drop (a.length - b.length)) b := by
  unfold polyAdd
  simp only [Nat.max_eq_left h, Nat.sub_self, List.replicate_zero, List.nil_append]

theorem polyAdd_length_of_le {a b : List Nat} (h : b.length ≤ a.length) :
    (polyAdd a b).length = a.length := by
  rw [polyAdd_of_le h]
  simp
  omega

/-! ### Facts supporting the `gfPow` and `gfInv` claims. -/

theorem logT_lt (x : Nat) : logT x < 255 := by
  have h : ∀ (fuel idx v val : Nat), logGo v val idx fuel ≤ idx + fuel - 1 := by
    intro fuel
    induction fuel with
    | zero => intro idx v val; exact Nat.zero_le _
    | succ fuel ih =>
      intro idx v val
      unfold logGo
      split
      · omega
      · have := ih (idx + 1) v (xtime val)
        omega
  have h2 := h 255 0 x 1
  unfold logT
  omega

theorem GFtable_255 : GFtable 255 = 1 := rfl

theorem gfMul_gfInv (x : Nat) (h0 : 0 < x) (hx : x < 256) : gfMul x (gfInv x) = 1 := by
  obtain ⟨px, lx⟩ := pow2_logT x hx h0
  have hinv : gfInv x = GFtable (255 - logT x) := rfl
  have hinv0 : gfInv x ≠ 0 := by
    rw [hinv]
    have := GFtable_pos (255 - logT x)
    omega
  rw [gfMul_eq_GFtable x (gfInv x) (by omega) hinv0, hinv, logT_GFtable]
  by_cases h1 : logT x = 0
  · rw [h1]
    rfl
  · rw [Nat.mod_eq_of_lt (by omega), show logT x + (255 - logT x) = 255 from by omega]
    rfl

theorem gfPow_neg_one (x : Nat) (h0 : 0 < x) (hx : x < 256) (hne : x ≠ 1) :
    gfPow x (-1) = gfMul 2 (gfInv x) := by
  obtain ⟨px, lx⟩ := pow2_logT x hx h0
  have hl0 : logT x ≠ 0 := by
    intro h
    rw [h] at px
    exact hne px.symm
  unfold gfPow
  rw [show (((logT x : Int)) * (-1) % 256).toNat = 256 - logT x from by omega]
  unfold gfInv
  rw [show (2 : Nat) = GFtable 1 from rfl, gfMul_GFtable]
  exact GFtable_eq_iff_mod _ _ (by omega)

theorem gfPow_index_le (x : Nat) (n : Int) : ((logT x : Int) * n % 256).toNat ≤ 255 := by
  have h1 : 0 ≤ (logT x : Int) * n % 256 := Int.emod_nonneg _ (by decide)
  have h2 : (logT x : Int) * n % 256 < 256 := Int.emod_lt_of_pos _ (by decide)
  omega

/-! ### The encoding loop. -/

theorem encodeStep_eq (g buffer : List Nat) (position : Nat) :
    encodeStep g buffer position
      = if buffer.getD position 0 = 0 then buffer
        else xorRange buffer position
          (g.map (fun gk => gfMul gk (buffer.getD position 0))) := by
  simp only [encodeStep]
  by_cases h : buffer.getD position 0 = 0
  · rw [if_pos h, if_pos h]
  · rw [if_neg h, if_neg h]
    unfold xorRange
    rw [List.length_map]
    apply List.foldl_ext
    intro b k hk
    rw [getD_map (List.mem_range.mp hk)]

theorem encodeStep_length (g buffer : List Nat) (position : Nat) :
    (encodeStep g buffer position).length = buffer.length := by
  rw [encodeStep_eq]
  split
  · rfl
  · rw [xorRange_length]

theorem encodeStep_bounded {g buffer : List Nat} {position : Nat}
    (hb : ∀ c ∈ buffer, c < 256) : ∀ c ∈ encodeStep g buffer position, c < 256 := by
  rw [encodeStep_eq]
  split
  · exact hb
  · exact xorRange_bounded _ _ _ hb (map_gfMul_getD_lt g _)

theorem encodeStep_getD_lt {g buffer : List Nat} {position k : Nat}
    (h : position + g.length ≤ buffer.length) (hk : k < position) :
    (encodeStep g buffer position).getD k 0 = buffer.getD k 0 := by
  rw [encodeStep_eq]
  split
  · rfl
  · rw [xorRange_getD _ _ _ (by rw [List.length_map]; omega) k, if_neg (by omega),
      Nat.xor_zero]

theorem encodeStep_getD_self {g buffer : List Nat} {position : Nat}
    (h : position + g.length ≤ buffer.length) (hg0 : g.getD 0 0 = 1)
    (hglen : 0 < g.length) (hb : ∀ c ∈ buffer, c < 256) :
    (encodeStep g buffer position).getD position 0 = 0 := by
  rw [encodeStep_eq]
  split
  · assumption
  · rename_i hc
    rw [xorRange_getD _ _ _ (by rw [List.length_map]; omega) position,
      if_pos (by rw [List.length_map]; omega), Nat.sub_self,
      getD_map hglen, hg0, one_gfMul _ (getD_lt_of_bounded hb position), Nat.xor_self]

theorem encodeStep_eval {g buffer : List Nat} {position a : Nat} (ha : a < 256)
    (hroot : polyEval g a = 0) (hg : ∀ c ∈ g, c < 256) (hb : ∀ c ∈ buffer, c < 256)
    (h : position + g.length ≤ buffer.length) :
    polyEval (encodeStep g buffer position) a = polyEval buffer a := by
  rw [encodeStep_eq]
  split
  · rfl
  · rename_i hc
    have hml : (g.map (fun gk => gfMul gk (buffer.getD position 0))).length = g.length :=
      List.length_map g _
    rw [xorRange_eq_zipPad (by rw [hml]; omega),
      polyEval_zipWith_xor ha (by rw [padVec_length (by rw [hml]; omega)]) hb
        (bounded_of_getD (padVec_bounded (map_gfMul_getD_lt g _))),
      padVec, List.append_assoc, polyEval_replicate_append,
      polyEval_append ha (bounded_of_getD (map_gfMul_getD_lt g _))
        (fun e he => by rw [List.eq_of_mem_replicate he]; decide),
      polyEval_replicate_zero, Nat.xor_zero,
      polyEval_map_mul ha (getD_lt_of_bounded hb position) hg, hroot,
      gfMul_zero_left, gfMul_zero_left, Nat.xor_zero]

/-- The running invariant of the encoding loop: length and coefficient
bounds are preserved, the processed prefix is zeroed, and evaluation at
every generator root is unchanged. -/
theorem encode_fold_invariant (m : List Nat) (t : Nat) (hm : ∀ c ∈ m, c < 256) :
    ∀ j, j ≤ m.length →
      ((List.range j).foldl (encodeStep (generator t))
          (m ++ List.replicate t 0)).length = m.length + t
      ∧ (∀ c ∈ (List.range j).foldl (encodeStep (generator t))
          (m ++ List.replicate t 0), c < 256)
      ∧ (∀ k < j, ((List.range j).foldl (encodeStep (generator t))
          (m ++ List.replicate t 0)).getD k 0 = 0)
      ∧ (∀ i < t, polyEval ((List.range j).foldl (encodeStep (generator t))
          (m ++ List.replicate t 0)) (GFtable i)
          = polyEval (m ++ List.replicate t 0) (GFtable i)) := by
  intro j
  induction j with
  | zero =>
    intro hj
    refine ⟨by simp, ?_, by omega, fun i hi => rfl⟩
    intro c hc
    rcases List.mem_append.mp hc with h | h
    · exact hm c h
    · rw [List.eq_of_mem_replicate h]; decide
  | succ j ih =>
    intro hj
    obtain ⟨hlen, hb, hzero, heval⟩ := ih (by omega)
    rw [List.range_succ, List.foldl_append, List.foldl_cons, List.foldl_nil]
    have hfit : j + (generator t).length
        ≤ ((List.range j).foldl (encodeStep (generator t))
            (m ++ List.replicate t 0)).length := by
      rw [generator_length, hlen]
      omega
    refine ⟨by rw [encodeStep_length, hlen], encodeStep_bounded hb, ?_, ?_⟩
    · intro k hk
      by_cases h : k < j
      · rw [encodeStep_getD_lt hfit h]
        exact hzero k h
      · rw [show k = j from by omega]
        exact encodeStep_getD_self hfit (generator_head t)
          (by rw [generator_length]; omega) hb
    · intro i hi
      rw [encodeStep_eval (GFtable_lt i) (generator_root t i hi) (generator_bounded t)
        hb hfit]
      exact heval i hi

theorem encode_eq_append (m : List Nat) (t : Nat) :
    encode m t
      = m ++ ((List.range m.length).foldl (encodeStep (generator t))
          (m ++ List.replicate t 0)).drop m.length := rfl

theorem encode_length {m : List Nat} {t : Nat} (hm : ∀ c ∈ m, c < 256) :
    (encode m t).length = m.length + t := by
  obtain ⟨hlen, _, _, _⟩ := encode_fold_invariant m t hm m.length (Nat.le_refl _)
  rw [encode_eq_append, List.length_append, List.length_drop, hlen]
  omega

theorem encode_bounded {m : List Nat} {t : Nat} (hm : ∀ c ∈ m, c < 256) :
    ∀ c ∈ encode m t, c < 256 := by
  obtain ⟨_, hb, _, _⟩ := encode_fold_invariant m t hm m.length (Nat.le_refl _)
  rw [encode_eq_append]
  intro c hc
  rcases List.mem_append.mp hc with h | h
  · exact hm c h
  · exact hb c (List.drop_subset _ _ h)

theorem encode_take (m : List Nat) (t : Nat) : (encode m t).take m.length = m := by
  rw [encode_eq_append]
  exact List.take_left' rfl

/-- The heart of the round trip: every generator root is a root of the
encoded codeword, hence all syndromes vanish. -/
theorem encode_root {m : List Nat} {t : Nat} (hm : ∀ c ∈ m, c < 256) :
    ∀ i < t, polyEval (encode m t) (GFtable i) = 0 := by
  intro i hi
  obtain ⟨hlen, hb, hzero, heval⟩ :=
    encode_fold_invariant m t hm m.length (Nat.le_refl _)
  have htake : ((List.range m.length).foldl (encodeStep (generator t))
      (m ++ List.replicate t 0)).take m.length = List.replicate m.length 0 := by
    apply List.ext_getElem
    · rw [List.length_take, hlen, List.length_replicate]
      omega
    · intro k h1 h2
      rw [List.getElem_take, getElem_eq_getD (by rw [hlen]; rw [List.length_take, hlen] at h1; omega),
        hzero k (by rw [List.length_take, hlen] at h1; omega),
        List.getElem_replicate]
  have hdrop_len : (((List.range m.length).foldl (encodeStep (generator t))
      (m ++ List.replicate t 0)).drop m.length).length = t := by
    rw [List.length_drop, hlen]
    omega
  have hdrop_b : ∀ c ∈ ((List.range m.length).foldl (encodeStep (generator t))
      (m ++ List.replicate t 0)).drop m.length, c < 256 :=
    fun c hc => hb c (List.drop_subset _ _ hc)
  have hB0 : polyEval (m ++ List.replicate t 0) (GFtable i)
      = gfMul (polyEval m (GFtable i)) (fpow (GFtable i) t) := by
    rw [polyEval_append (GFtable_lt i) hm
        (fun e he => by rw [List.eq_of_mem_replicate he]; decide),
      List.length_replicate, polyEval_replicate_zero, Nat.xor_zero]
  have hBsplit : polyEval ((List.range m.length).foldl (encodeStep (generator t))
      (m ++ List.replicate t 0)) (GFtable i)
      = polyEval (((List.range m.length).foldl (encodeStep (generator t))
          (m ++ List.replicate t 0)).drop m.length) (GFtable i) := by
    conv_lhs => rw [← List.take_append_drop m.length ((List.range m.length).foldl
      (encodeStep (generator t)) (m ++ List.replicate t 0)), htake]
    rw [polyEval_replicate_append]
  have hD : polyEval (((List.range m.length).foldl (encodeStep (generator t))
      (m ++ List.replicate t 0)).drop m.length) (GFtable i)
      = gfMul (polyEval m (GFtable i)) (fpow (GFtable i) t) := by
    rw [← hBsplit, heval i hi, hB0]
  rw [encode_eq_append,
    polyEval_append (GFtable_lt i) hm hdrop_b, hdrop_len, hD, Nat.xor_self]

/-! ### The syndrome polynomial. -/

theorem set_append_length_cons {α : Type} :
    ∀ (u : List α) (c : α) (w : List α) (v : α), (u ++ c :: w).set u.length v = u ++ v :: w
  | [], c, w, v => rfl
  | d :: u, c, w, v => congrArg (d :: ·) (set_append_length_cons u c w v)

theorem set_append_cons_of_len {α : Type} (u : List α) (c : α) (w : List α) (v : α)
    (i : Nat) (h : u.length = i) : (u ++ c :: w).set i v = u ++ v :: w := by
  subst h
  exact set_append_length_cons u c w v

theorem set_fold_eq_map (f : Nat → Nat) :
    ∀ (j : Nat) (l : List Nat), j ≤ l.length →
      (List.range j).foldl (fun g i => g.set i (f i)) l
        = (List.range j).map f ++ l.drop j := by
  intro j
  induction j with
  | zero => intro l hj; simp
  | succ j ih =>
    intro l hj
    rw [List.range_succ, List.foldl_append, List.foldl_cons, List.foldl_nil,
      ih l (by omega)]
    have hd : l.drop j = l[j] :: l.drop (j + 1) := List.drop_eq_getElem_cons (by omega)
    rw [hd, set_append_cons_of_len _ _ _ _ j (by simp), List.map_append,
      List.append_assoc]
    rfl

theorem syndromePolynomial_eq_map (block : List Nat) (t : Nat) :
    syndromePolynomial block t
      = (List.range t).map (fun i => polyEval block (GFtable i)) := by
  unfold syndromePolynomial
  rw [set_fold_eq_map _ t (List.replicate t 0) (by simp),
    List.drop_eq_nil_of_le (by simp), List.append_nil]

theorem syndromePolynomial_length (block : List Nat) (t : Nat) :
    (syndromePolynomial block t).length = t := by
  rw [syndromePolynomial_eq_map]
  simp

theorem foldl_max_zero : ∀ (l : List Nat), (∀ c ∈ l, c = 0) → l.foldl Nat.max 0 = 0
  | [], h => rfl
  | c :: l, h => by
    rw [List.foldl_cons, h c (List.mem_cons_self c l),
      show Nat.max 0 0 = 0 from rfl]
    exact foldl_max_zero l (fun e he => h e (List.mem_cons_of_mem c he))

theorem pyDropLast_pos {l : List Nat} {t : Nat} (h : t ≠ 0) :
    pyDropLast l t = l.take (l.length - t) := by
  unfold pyDropLast
  rw [if_neg h]

/-- When no more than `error_size` erasures are present and every syndrome
coefficient of the zero-filled working copy vanishes, `decode` returns the
working copy minus the parity tail. -/
theorem decode_fastpath (msg : List Int) (t : Nat) (ht : 1 ≤ t)
    (hcount : ¬(erasurePositions msg).length > t)
    (hsynd : ∀ c ∈ syndromePolynomial ((workingCopy msg).map Int.toNat) t, c = 0) :
    decode msg t
      = .ok (((workingCopy msg).map Int.toNat).take
          (((workingCopy msg).map Int.toNat).length - t)) := by
  have hlen : (syndromePolynomial ((workingCopy msg).map Int.toNat) t).length = t :=
    syndromePolynomial_length _ _
  have hne : (syndromePolynomial ((workingCopy msg).map Int.toNat) t).isEmpty = false := by
    rw [List.isEmpty_eq_false]
    intro h
    rw [h] at hlen
    simp at hlen
    omega
  have hmax : (syndromePolynomial ((workingCopy msg).map Int.toNat) t).foldl Nat.max 0 = 0 :=
    foldl_max_zero _ hsynd
  simp only [decode]
  rw [if_neg hcount, if_neg (by rw [hne]; exact Bool.false_ne_true), if_pos hmax,
    pyDropLast_pos (by omega)]

theorem workingCopy_ofNat (m : List Nat) :
    workingCopy (m.map Int.ofNat) = m.map Int.ofNat := by
  unfold workingCopy
  rw [List.map_map]
  apply List.map_congr_left
  intro v hv
  simp only [Function.comp_apply]
  rw [if_neg (show ¬Int.ofNat v < 0 from Int.not_lt.mpr (Int.ofNat_nonneg v))]

theorem toNat_map_cast (m : List Nat) : (m.map Int.ofNat).map Int.toNat = m := by
  rw [List.map_map]
  have h : (Int.toNat ∘ Int.ofNat) = id := funext (fun v => rfl)
  rw [h, List.map_id]

theorem getD_map_int (m : List Nat) (p : Nat) :
    (m.map Int.ofNat).getD p 0 = Int.ofNat (m.getD p 0) := by
  rw [List.getD_eq_getElem?_getD, List.getElem?_map, List.getD_eq_getElem?_getD]
  cases m[p]? <;> rfl

theorem erasurePositions_ofNat (m : List Nat) :
    erasurePositions (m.map Int.ofNat) = [] := by
  unfold erasurePositions
  have h : (List.range (m.map Int.ofNat).length).filter
      (fun p => decide ((m.map Int.ofNat).getD p 0 < 0)) = [] := by
    rw [List.filter_eq_nil_iff]
    intro p hp
    rw [getD_map_int]
    simp only [decide_eq_true_eq]
    exact Int.not_lt.mpr (Int.ofNat_nonneg _)
  rw [h]
  rfl

theorem position_filter_length : ∀ (msg : List Int),
    ((List.range msg.length).filter (fun p => decide (msg.getD p 0 < 0))).length
      = (msg.filter (fun v => decide (v < 0))).length
  | [] => rfl
  | v :: rest => by
    rw [show (v :: rest).length = rest.length + 1 from rfl, List.range_succ_eq_map]
    have hmap : (List.map Nat.succ (List.range rest.length)).filter
        (fun p => decide ((v :: rest).getD p 0 < 0))
        = ((List.range rest.length).filter
            (fun q => decide (rest.getD q 0 < 0))).map Nat.succ := by
      rw [List.filter_map]
      rfl
    rw [List.filter_cons, List.filter_cons,
      show (decide ((v :: rest).getD 0 0 < 0)) = decide (v < 0) from rfl, hmap]
    by_cases h : v < 0
    · rw [if_pos (decide_eq_true h), if_pos (decide_eq_true h), List.length_cons,
        List.length_cons, List.length_map, position_filter_length rest]
    · rw [if_neg (by simp [h]), if_neg (by simp [h]), List.length_map,
        position_filter_length rest]

/-- The recorded erasure count is the number of negative received values. -/
theorem erasurePositions_length (msg : List Int) :
    (erasurePositions msg).length = (msg.filter (fun v => decide (v < 0))).length := by
  unfold erasurePositions
  rw [List.length_map]
  exact position_filter_length msg

theorem gfDiv_error (x y : Nat) (e : RSError) (h : gfDiv x y = .error e) :
    e = .DivisionByZero := by
  unfold gfDiv at h
  split at h
  · injection h with h
    exact h.symm
  · split at h <;> exact Except.noConfusion h

theorem foldlM_except_error {α β : Type} (f : β → α → Except RSError β)
    (hf : ∀ b y e, f b y = .error e → e = .DivisionByZero) :
    ∀ (l : List α) (init : β) (e : RSError),
      l.foldlM f init = .error e → e = .DivisionByZero
  | [], init, e, h => Except.noConfusion h
  | y :: l, init, e, h => by
    rw [List.foldlM_cons] at h
    cases hy : f init y with
    | error e2 =>
      rw [hy] at h
      have h2 : (Except.error e2 : Except RSError β) = .error e := h
      injection h2 with h2
      rw [← h2]
      exact hf init y e2 hy
    | ok b =>
      rw [hy] at h
      exact foldlM_except_error f hf l b e h

theorem except_map_error {α β : Type} (f : α → β) (x : Except RSError α) (e : RSError)
    (h : x.map f = .error e) : x = .error e := by
  cases x with
  | error e2 =>
    have h2 : (Except.error e2 : Except RSError β) = .error e := h
    injection h2 with h2
    rw [h2]
  | ok a => exact Except.noConfusion h

theorem correct_error (message syndromePoly : List Nat) (errors : List Int) (e : RSError)
    (h : correct message syndromePoly errors = .error e) : e = .DivisionByZero := by
  simp only [correct] at h
  refine foldlM_except_error _ ?_ _ _ _ (except_map_error _ _ _ h)
  intro b y e3 hy
  exact gfDiv_error _ _ _ (except_map_error _ _ _ hy)

theorem findErrors_error (fs : List Nat) (n : Nat) (e : RSError)
    (h : findErrors fs n = .error e) : e = .TooManyErrors := by
  simp only [findErrors] at h
  split at h
  · injection h with h
    exact h.symm
  · split at h
    · injection h with h
      exact h.symm
    · exact Except.noConfusion h

theorem foldl_ite_append {α β : Type} (P : α → Prop) [DecidablePred P] (f : α → β) :
    ∀ (l : List α) (acc : List β),
      l.foldl (fun ac x => if P x then ac ++ [f x] else ac) acc
        = acc ++ (l.filter (fun x => decide (P x))).map f
  | [], acc => by simp
  | x :: l, acc => by
    rw [List.foldl_cons, List.filter_cons]
    by_cases h : P x
    · rw [if_pos h, if_pos (decide_eq_true h), foldl_ite_append P f l (acc ++ [f x]),
        List.map_cons, List.append_assoc]
      rfl
    · rw [if_neg h, if_neg (by simp [h]), foldl_ite_append P f l acc]

/-! ### The claims. -/

/-- C1: round trip without corruption.  The claim as frozen quantifies over
every parity size; at `t = 0` the decoder instead raises `ValueError`
(Python `max` of the empty syndrome), so the claim is proved for
`1 ≤ t ≤ 512` (beyond 512 the Python table indexing `GF[i]` would raise
`IndexError` while building the generator polynomial). -/
theorem claimC1_round_trip (m : List Nat) (t : Nat) (hm : ∀ c ∈ m, c < 256)
    (ht1 : 1 ≤ t) (ht2 : t ≤ 512) :
    decode ((encode m t).map Int.ofNat) t = .ok m := by
  have hbufN : (workingCopy ((encode m t).map Int.ofNat)).map Int.toNat = encode m t := by
    rw [workingCopy_ofNat, toNat_map_cast]
  have hsynd : ∀ c ∈ syndromePolynomial
      ((workingCopy ((encode m t).map Int.ofNat)).map Int.toNat) t, c = 0 := by
    rw [hbufN, syndromePolynomial_eq_map]
    intro c hc
    obtain ⟨i, hi, rfl⟩ := List.mem_map.mp hc
    exact encode_root hm i (List.mem_range.mp hi)
  rw [decode_fastpath _ t ht1 (by rw [erasurePositions_ofNat]; simp) hsynd, hbufN,
    encode_length hm, show m.length + t - t = m.length from by omega, encode_take]

/-- C1 witness: the concrete scenario of spec §8. -/
theorem claimC1_witness :
    decode ((encode [72, 101, 108, 108, 111] 4).map Int.ofNat) 4
      = .ok [72, 101, 108, 108, 111] :=
  claimC1_round_trip [72, 101, 108, 108, 111] 4 (by decide) (by decide) (by decide)

/-- C1 counterexample: at parity size 0 the decoder errors out instead of
returning the message. -/
theorem claimC1_counterexample :
    decode ((encode [5] 0).map Int.ofNat) 0 ≠ .ok [5]
      ∧ decode ((encode [5] 0).map Int.ofNat) 0 = .error .ValueError := by
  constructor <;> decide

/-- C2: the claim states the exponent is reduced mod 255; `gfPow` actually
reduces mod `lowSize = 256`, so the index lands in `[0, 255]` and
`power(x, -1)` is `2 * inverse(x)` (for `x ≠ 1`), not `inverse(x)`. -/
theorem claimC2_power (x : Nat) (h0 : 0 < x) (hx : x < 256) :
    (∀ n : Int, gfPow x n = GFtable (((logT x : Int) * n % 256).toNat)
      ∧ ((logT x : Int) * n % 256).toNat ≤ 255)
    ∧ (x ≠ 1 → gfPow x (-1) = gfMul 2 (gfInv x)) :=
  ⟨fun n => ⟨rfl, gfPow_index_le x n⟩, fun hne => gfPow_neg_one x h0 hx hne⟩

/-- C2 witness. -/
theorem claimC2_witness :
    gfPow 3 5 = GFtable (((logT 3 : Int) * 5 % 256).toNat)
      ∧ gfPow 3 (-1) = gfMul 2 (gfInv 3) :=
  ⟨((claimC2_power 3 (by decide) (by decide)).1 5).1,
    (claimC2_power 3 (by decide) (by decide)).2 (by decide)⟩

/-- C2 counterexample: `power(2, -1)` is 1, not `inverse(2) = 142`, and at
`x = 4`, `n = 128` the result differs from the claimed mod-255 lookup. -/
theorem claimC2_counterexample :
    gfPow 2 (-1) ≠ gfInv 2 ∧ gfPow 4 128 ≠ GFtable ((logT 4 * 128) % 255) := by
  constructor <;> decide

/-- C3 (amended): the error evaluator is the remainder of `s * l` divided
by the monomial with `t` zero coefficients, i.e. `x^t` — the trailing `t`
coefficients of the product — not `x^{t+1}` as claimed. -/
theorem claimC3_error_evaluator (s l : List Nat) (t : Nat) (ht : 1 ≤ t) :
    errorEvaluatorPolynomial s l t
      = (polyMul s l).drop ((polyMul s l).length - t) := by
  unfold errorEvaluatorPolynomial
  rw [polyDiv_xpow, if_neg (by omega)]

/-- C3 witness. -/
theorem claimC3_witness :
    errorEvaluatorPolynomial [1, 1] [1] 1
      = (polyMul [1, 1] [1]).drop ((polyMul [1, 1] [1]).length - 1) :=
  claimC3_error_evaluator [1, 1] [1] 1 (by decide)

/-- C3 counterexample: the remainder of division by `x^{t+1}`
(`Polynomial([1] + [0]*(t+1))`) differs from what the code returns. -/
theorem claimC3_counterexample :
    errorEvaluatorPolynomial [1, 1] [1] 1 ≠ (polyDiv (polyMul [1, 1] [1]) (xpow 2)).2
      ∧ errorEvaluatorPolynomial [1, 1] [1] 1 = [1]
      ∧ (polyDiv (polyMul [1, 1] [1]) (xpow 2)).2 = [1, 1] := by
  refine ⟨?_, ?_, ?_⟩ <;> decide

/-- C5: `decode` raises `TooManyErasures` exactly when the number of
negative (sentinel) entries strictly exceeds the parity size.  The guard
sits before the syndrome computation, so no other stage can produce this
error kind: the full path can only fail with `TooManyErrors` (from
`findErrors`) or `DivisionByZero` (from `correct`), and the empty-syndrome
case raises `ValueError`. -/
theorem claimC5_too_many_erasures (msg : List Int) (t : Nat) :
    decode msg t = .error .TooManyErasures
      ↔ t < (msg.filter (fun v => decide (v < 0))).length := by
  rw [← erasurePositions_length]
  constructor
  · intro h
    by_contra hc
    push_neg at hc
    revert h
    simp only [decode]
    rw [if_neg (by omega)]
    intro h
    split at h
    · injection h with h
      exact RSError.noConfusion h
    · split at h
      · exact Except.noConfusion h
      · split at h
        · rename_i e he
          injection h with h
          rw [findErrors_error _ _ _ he] at h
          exact RSError.noConfusion h
        · rename_i errorList he
          split at h
          · rename_i e2 he2
            injection h with h
            rw [correct_error _ _ _ _ he2] at h
            exact RSError.noConfusion h
          · exact Except.noConfusion h
  · intro h
    simp only [decode]
    rw [if_pos (by omega)]

/-- C5 witness. -/
theorem claimC5_witness : decode [-1, -1] 1 = .error .TooManyErasures :=
  (claimC5_too_many_erasures [-1, -1] 1).mpr (by decide)

/-- C6 (amended): polynomial addition is self-inverse when the second
operand is no longer than the first; when it is longer, the result keeps
the longer padded length and cannot equal `a`. -/
theorem claimC6_add_self_inverse (a b : List Nat) (h : b.length ≤ a.length) :
    polyAdd (polyAdd a b) b = a := by
  have h1 : (polyAdd a b).length = a.length := polyAdd_length_of_le h
  rw [polyAdd_of_le (by rw [h1]; exact h), h1, polyAdd_of_le h,
    List.take_left' (by rw [List.length_take]; omega),
    List.drop_left' (by rw [List.length_take]; omega),
    zipWith_xor_cancel _ _ (by rw [List.length_drop]; omega),
    List.take_append_drop]

/-- C6 witness. -/
theorem claimC6_witness : polyAdd (polyAdd [1, 2] [3]) [3] = [1, 2] :=
  claimC6_add_self_inverse [1, 2] [3] (by decide)

/-- C6 counterexample: when `b` is longer than `a` the double addition
returns the padded list, not `a`. -/
theorem claimC6_counterexample :
    polyAdd (polyAdd [1] [2, 3]) [2, 3] ≠ [1]
      ∧ polyAdd (polyAdd [1] [2, 3]) [2, 3] = [0, 1] := by
  constructor <;> decide

/-- C7: division by the monomial `x^k` (`Polynomial([1] + [0]*k)`) gives a
quotient and remainder that recombine to the dividend:
`a == multiply(quotient, x^k) XOR remainder`. -/
theorem claimC7_divide_by_monomial (a : List Nat) (k : Nat) (hk : 1 ≤ k)
    (hlen : k < a.length) (hb : ∀ c ∈ a, c < 256) :
    polyAdd (polyMul (polyDiv a (xpow k)).1 (xpow k)) (polyDiv a (xpow k)).2 = a := by
  rw [polyDiv_xpow, if_neg (by omega)]
  have htake_b : ∀ c ∈ a.take (a.length - k), c < 256 :=
    fun c hc => hb c (List.take_subset _ _ hc)
  rw [polyMul_xpow htake_b k]
  have hlen1 : (a.take (a.length - k) ++ List.replicate k 0).length = a.length := by
    rw [List.length_append, List.length_take, List.length_replicate]
    omega
  have hlen2 : (a.drop (a.length - k)).length = k := by
    rw [List.length_drop]
    omega
  rw [polyAdd_of_le (by rw [hlen1, hlen2]; omega), hlen1, hlen2,
    List.take_left' (by rw [List.length_take]; omega),
    List.drop_left' (by rw [List.length_take]; omega),
    zipWith_xor_zero_left _ _ hlen2, List.take_append_drop]

/-- C7 witness. -/
theorem claimC7_witness :
    polyAdd (polyMul (polyDiv [1, 2, 3] (xpow 1)).1 (xpow 1)) (polyDiv [1, 2, 3] (xpow 1)).2
      = [1, 2, 3] :=
  claimC7_divide_by_monomial [1, 2, 3] 1 (by decide) (by decide) (by decide)

/-- C9: every non-zero field element times its table inverse is 1, and the
inverse is the table lookup at `255 - log x`. -/
theorem claimC9_mul_inverse (x : Nat) (h0 : 0 < x) (hx : x < 256) :
    gfMul x (gfInv x) = 1 ∧ gfInv x = GFtable (255 - logT x) :=
  ⟨gfMul_gfInv x h0 hx, rfl⟩

/-- C9 witness. -/
theorem claimC9_witness : gfMul 2 (gfInv 2) = 1 ∧ gfInv 2 = GFtable (255 - logT 2) :=
  claimC9_mul_inverse 2 (by decide) (by decide)

/-- C8 (amended): when at most `error_size` erasures were recorded and the
syndrome of the zero-filled working copy is identically zero, `decode`
returns the working copy minus the trailing `error_size` symbols at once —
no Forney-syndrome, Berlekamp-Massey, Chien or correction stage can
influence the result — even when erasure positions were recorded.  The
claim as frozen also covers `error_size = 0`, where the syndrome is empty
(vacuously all-zero) and Python `max(())` raises `ValueError` instead, so
`1 ≤ t` is required; `msg ≠ []` avoids the `IndexError` Python's `eval`
raises on an empty polynomial. -/
theorem claimC8_zero_syndrome_fast_path (msg : List Int) (t : Nat) (ht : 1 ≤ t)
    (hne : msg ≠ []) (hcount : (erasurePositions msg).length ≤ t)
    (hsynd : ∀ c ∈ syndromePolynomial ((workingCopy msg).map Int.toNat) t, c = 0) :
    decode msg t = .ok (((workingCopy msg).map Int.toNat).take (msg.length - t)) := by
  have hl : ((workingCopy msg).map Int.toNat).length = msg.length := by
    unfold workingCopy
    rw [List.length_map, List.length_map]
  rw [decode_fastpath msg t ht (by omega) hsynd, hl]

/-- C8 witness: a received word with one erasure whose zero-fill already
has a zero syndrome. -/
theorem claimC8_witness : decode [-1, 0] 1 = .ok [0] := by
  have h := claimC8_zero_syndrome_fast_path [-1, 0] 1 (by decide) (by decide)
    (by decide) (by decide)
  rw [h]
  decide

/-- C8 counterexample: at `error_size = 0` the (empty) syndrome is
vacuously all-zero but `decode` raises `ValueError` instead of returning
the message symbols. -/
theorem claimC8_counterexample :
    (∀ c ∈ syndromePolynomial ((workingCopy [(5 : Int)]).map Int.toNat) 0, c = 0)
      ∧ (erasurePositions [(5 : Int)]).length ≤ 0
      ∧ decode [(5 : Int)] 0 = .error .ValueError
      ∧ decode [(5 : Int)] 0 ≠ .ok (((workingCopy [(5 : Int)]).map Int.toNat).take (1 - 0)) := by
  refine ⟨?_, ?_, ?_, ?_⟩ <;> decide

/-- C4 (amended): `findErrors` evaluates the locator at `gfPow(2, i)` for
every `i` in `range(256)` — the source iterates `range(self.GF.lowSize)`
with `lowSize = 256`, not `[0, 255)` as claimed — records position
`length_message - i - 1` for every zero, and fails with `TooManyErrors`
exactly when the zero count differs from the locator degree (after the
Berlekamp-Massey bound check). -/
theorem claimC4_chien_search (fs : List Nat) (n : Nat) :
    findErrors fs n
      = if ((bmLocator fs).length - 1) * 2 > fs.length then .error .TooManyErrors
        else if ((List.range 256).filter
            (fun i => decide (polyEval (bmLocator fs) (gfPow 2 (Int.ofNat i)) = 0))).length
            ≠ (bmLocator fs).length - 1 then .error .TooManyErrors
        else .ok (((List.range 256).filter
            (fun i => decide (polyEval (bmLocator fs) (gfPow 2 (Int.ofNat i)) = 0))).map
            (fun i : Nat => (n : Int) - i - 1)) := by
  simp only [findErrors]
  rw [foldl_ite_append (fun i => polyEval (bmLocator fs) (gfPow 2 (Int.ofNat i)) = 0)
    (fun i : Nat => (n : Int) - i - 1) (List.range 256) [], List.nil_append, List.length_map]

/-- C4 counterexample: on the syndromes `[1, 1]` (a single error in the
last codeword position, locator `x ^ 1`, root at `2^0 = 1`) the code's
`range(256)` scan also hits `i = 255` (where `gfPow(2, 255) = GF[255] = 1`
again), finds two zeros for a degree-1 locator and fails with
`TooManyErrors`; the claimed `[0, 255)` scan would succeed. -/
theorem claimC4_counterexample :
    findErrors [1, 1] 3 ≠ chienClaim255 [1, 1] 3
      ∧ findErrors [1, 1] 3 = .error .TooManyErrors
      ∧ chienClaim255 [1, 1] 3 = .ok [2] := by
  refine ⟨?_, ?_, ?_⟩ <;> decide

end RS

